import Mathlib

/-!
Verification of the omnia-vcv DSP core against its specification.

The C++ sources are shallowly embedded: float arithmetic is modelled by
exact rational arithmetic (`ℚ`), C integers by `ℤ`/`ℕ` with explicit
wrap-around where the machine width matters, and each per-sample
`process` routine becomes a pure state-transition function.
-/

namespace OmniaVCV

/-! ## ADSR envelope (src/ChordPadSynth.cpp lines 7-68, src/ChordPluckSynth.cpp lines 9-71)

Both files define an identical `struct ADSR` except for the body of
`gate`: the pad variant only enters ATTACK from IDLE, the pluck variant
forces `state = ATTACK; output = 0` on every gate-on. -/

inductive AdsrState where
  | idle
  | attack
  | decay
  | sustain
  | release
deriving DecidableEq, Repr

structure Adsr where
  attack : ℚ
  decay : ℚ
  sustain : ℚ
  release : ℚ
  state : AdsrState
  output : ℚ
deriving DecidableEq, Repr

/-- Field defaults of the pad variant (ChordPadSynth.cpp lines 8-11, 21-22). -/
def padInit : Adsr :=
  { attack := 1/100, decay := 1/10, sustain := 7/10, release := 1/5
    state := .idle, output := 0 }

/-- Field defaults of the pluck variant (ChordPluckSynth.cpp lines 10-13). -/
def pluckInit : Adsr :=
  { attack := 1/1000, decay := 1/10, sustain := 0, release := 1/5
    state := .idle, output := 0 }

/-- Rack `math::clamp`: `max(min(x, b), a)`; if `b < a` it returns `a`. -/
def rackClamp (x a b : ℚ) : ℚ := max (min x b) a

/-- `setAttack`: `attack = std::max(0.001f, a)`. -/
def setAttack (e : Adsr) (a : ℚ) : Adsr := { e with attack := max (1/1000) a }

/-- `setDecay`: `decay = std::max(0.001f, d)`. -/
def setDecay (e : Adsr) (d : ℚ) : Adsr := { e with decay := max (1/1000) d }

/-- `setSustain`: `sustain = math::clamp(s, 0.f, 1.f)`. -/
def setSustain (e : Adsr) (s : ℚ) : Adsr := { e with sustain := rackClamp s 0 1 }

/-- `setRelease`: `release = std::max(0.001f, r)`. -/
def setRelease (e : Adsr) (r : ℚ) : Adsr := { e with release := max (1/1000) r }

/-- `ADSR::gate` of the pad variant (ChordPadSynth.cpp lines 29-35). -/
def gatePad (e : Adsr) (g : Bool) : Adsr :=
  if g = true ∧ e.state = .idle then
    { e with state := .attack }
  else if g = false ∧ e.state ≠ .idle ∧ e.state ≠ .release then
    { e with state := .release }
  else e

/-- `ADSR::gate` of the pluck variant (ChordPluckSynth.cpp lines 30-38). -/
def gatePluck (e : Adsr) (g : Bool) : Adsr :=
  if g = true then
    { e with state := .attack, output := 0 }
  else if g = false ∧ e.state ≠ .idle ∧ e.state ≠ .release then
    { e with state := .release }
  else e

/-- `ADSR::process` (identical in both files). -/
def adsrProcess (e : Adsr) (dt : ℚ) : Adsr :=
  match e.state with
  | .idle => { e with output := 0 }
  | .attack =>
      let o := e.output + dt / e.attack
      if 1 ≤ o then { e with output := 1, state := .decay }
      else { e with output := o }
  | .decay =>
      let o := e.output - dt / e.decay
      if o ≤ e.sustain then { e with output := e.sustain, state := .sustain }
      else { e with output := o }
  | .sustain => { e with output := e.sustain }
  | .release =>
      let o := e.output - dt / e.release
      if o ≤ 0 then { e with output := 0, state := .idle }
      else { e with output := o }

/-- One external interaction with the envelope: a setter call, a gate
edge, or one `process` step. -/
inductive AdsrEvent where
  | setA (a : ℚ)
  | setD (d : ℚ)
  | setS (s : ℚ)
  | setR (r : ℚ)
  | gate (g : Bool)
  | step (dt : ℚ)
deriving DecidableEq, Repr

/-- Run a sequence of events; `pluck` selects which `gate` body is used. -/
def adsrRun (pluck : Bool) (e : Adsr) : List AdsrEvent → Adsr
  | [] => e
  | ev :: rest =>
      adsrRun pluck
        (match ev with
          | .setA a => setAttack e a
          | .setD d => setDecay e d
          | .setS s => setSustain e s
          | .setR r => setRelease e r
          | .gate g => if pluck then gatePluck e g else gatePad e g
          | .step dt => adsrProcess e dt)
        rest

/-- A `step` event must carry a nonnegative time increment. -/
def stepOk : AdsrEvent → Prop
  | .step dt => 0 ≤ dt
  | _ => True

instance : DecidablePred stepOk := by
  intro ev
  cases ev <;> (unfold stepOk; infer_instance)

/-- Every `step` event in the list advances time forward. -/
def stepsNonneg (evs : List AdsrEvent) : Prop :=
  ∀ ev ∈ evs, stepOk ev

instance : DecidablePred stepsNonneg := fun evs =>
  List.decidableBAll stepOk evs

/-- The inductive invariant maintained by every envelope operation. -/
def AdsrInv (e : Adsr) : Prop :=
  0 ≤ e.output ∧ e.output ≤ 1 ∧ 0 ≤ e.sustain ∧ e.sustain ≤ 1 ∧
    0 < e.attack ∧ 0 < e.decay ∧ 0 < e.release

theorem adsrInv_padInit : AdsrInv padInit := by
  constructor <;> norm_num [padInit, AdsrInv]

theorem adsrInv_pluckInit : AdsrInv pluckInit := by
  constructor <;> norm_num [pluckInit, AdsrInv]

theorem adsrInv_setAttack (e : Adsr) (a : ℚ) (h : AdsrInv e) :
    AdsrInv (setAttack e a) := by
  obtain ⟨h1, h2, h3, h4, h5, h6, h7⟩ := h
  refine ⟨h1, h2, h3, h4, ?_, h6, h7⟩
  simp only [setAttack, lt_max_iff]
  left; norm_num

theorem adsrInv_setDecay (e : Adsr) (d : ℚ) (h : AdsrInv e) :
    AdsrInv (setDecay e d) := by
  obtain ⟨h1, h2, h3, h4, h5, h6, h7⟩ := h
  refine ⟨h1, h2, h3, h4, h5, ?_, h7⟩
  simp only [setDecay, lt_max_iff]
  left; norm_num

theorem adsrInv_setSustain (e : Adsr) (s : ℚ) (h : AdsrInv e) :
    AdsrInv (setSustain e s) := by
  obtain ⟨h1, h2, h3, h4, h5, h6, h7⟩ := h
  refine ⟨h1, h2, ?_, ?_, h5, h6, h7⟩
  · simp only [setSustain, rackClamp, le_max_iff]; right; rfl
  · simp only [setSustain, rackClamp, max_le_iff, min_le_iff]
    constructor
    · right; norm_num
    · norm_num

theorem adsrInv_setRelease (e : Adsr) (r : ℚ) (h : AdsrInv e) :
    AdsrInv (setRelease e r) := by
  obtain ⟨h1, h2, h3, h4, h5, h6, h7⟩ := h
  refine ⟨h1, h2, h3, h4, h5, h6, ?_⟩
  simp only [setRelease, lt_max_iff]
  left; norm_num

theorem adsrInv_gatePad (e : Adsr) (g : Bool) (h : AdsrInv e) :
    AdsrInv (gatePad e g) := by
  obtain ⟨h1, h2, h3, h4, h5, h6, h7⟩ := h
  unfold gatePad
  split
  · exact ⟨h1, h2, h3, h4, h5, h6, h7⟩
  · split
    · exact ⟨h1, h2, h3, h4, h5, h6, h7⟩
    · exact ⟨h1, h2, h3, h4, h5, h6, h7⟩

theorem adsrInv_gatePluck (e : Adsr) (g : Bool) (h : AdsrInv e) :
    AdsrInv (gatePluck e g) := by
  obtain ⟨h1, h2, h3, h4, h5, h6, h7⟩ := h
  unfold gatePluck
  split
  · exact ⟨le_refl 0, by norm_num, h3, h4, h5, h6, h7⟩
  · split
    · exact ⟨h1, h2, h3, h4, h5, h6, h7⟩
    · exact ⟨h1, h2, h3, h4, h5, h6, h7⟩

theorem adsrInv_process (e : Adsr) (dt : ℚ) (h : AdsrInv e) (hdt : 0 ≤ dt) :
    AdsrInv (adsrProcess e dt) := by
  obtain ⟨h1, h2, h3, h4, h5, h6, h7⟩ := h
  unfold adsrProcess
  have hda : 0 ≤ dt / e.attack := div_nonneg hdt (le_of_lt h5)
  have hdd : 0 ≤ dt / e.decay := div_nonneg hdt (le_of_lt h6)
  have hdr : 0 ≤ dt / e.release := div_nonneg hdt (le_of_lt h7)
  cases hs : e.state <;> simp only
  · exact ⟨le_refl 0, by norm_num, h3, h4, h5, h6, h7⟩
  · split
    · exact ⟨by norm_num, le_refl 1, h3, h4, h5, h6, h7⟩
    · next hlt =>
        refine ⟨by linarith, by linarith [lt_of_not_le hlt], h3, h4, h5, h6, h7⟩
  · split
    · exact ⟨h3, h4, h3, h4, h5, h6, h7⟩
    · next hgt =>
        refine ⟨by linarith [lt_of_not_le hgt], by linarith, h3, h4, h5, h6, h7⟩
  · exact ⟨h3, h4, h3, h4, h5, h6, h7⟩
  · split
    · exact ⟨le_refl 0, by norm_num, h3, h4, h5, h6, h7⟩
    · next hgt =>
        refine ⟨by linarith [lt_of_not_le hgt], by linarith, h3, h4, h5, h6, h7⟩

theorem adsrInv_run (pluck : Bool) (e : Adsr) (evs : List AdsrEvent)
    (h : AdsrInv e) (hevs : stepsNonneg evs) : AdsrInv (adsrRun pluck e evs) := by
  induction evs generalizing e with
  | nil => exact h
  | cons ev rest ih =>
      have hrest : stepsNonneg rest := by
        intro x hx
        exact hevs x (List.mem_cons_of_mem ev hx)
      cases ev with
      | setA a => exact ih (setAttack e a) (adsrInv_setAttack e a h) hrest
      | setD d => exact ih (setDecay e d) (adsrInv_setDecay e d h) hrest
      | setS s => exact ih (setSustain e s) (adsrInv_setSustain e s h) hrest
      | setR r => exact ih (setRelease e r) (adsrInv_setRelease e r h) hrest
      | gate g =>
          simp only [adsrRun]
          cases pluck with
          | false => exact ih (gatePad e g) (adsrInv_gatePad e g h) hrest
          | true => exact ih (gatePluck e g) (adsrInv_gatePluck e g h) hrest
      | step dt =>
          have hdt : 0 ≤ dt := hevs (.step dt) (List.mem_cons_self _ _)
          exact ih (adsrProcess e dt) (adsrInv_process e dt h hdt) hrest

/-- After a `process` call the new state determines the output in IDLE
(exactly `0`) and in SUSTAIN (exactly the sustain level), whatever the
preceding state was. -/
theorem adsrProcess_state_output (e : Adsr) (dt : ℚ) :
    ((adsrProcess e dt).state = .idle → (adsrProcess e dt).output = 0) ∧
      ((adsrProcess e dt).state = .sustain →
        (adsrProcess e dt).output = (adsrProcess e dt).sustain) := by
  unfold adsrProcess
  cases hs : e.state <;> simp only
  · simp [hs]
  · split <;> simp [hs]
  · split <;> simp [hs]
  · simp [hs]
  · split <;> simp [hs]

/-- After a `process` call: output in `[0,1]`, exactly `0` in IDLE, and
exactly the sustain level in SUSTAIN. -/
theorem adsrProcess_post (e : Adsr) (dt : ℚ) (h : AdsrInv e) (hdt : 0 ≤ dt) :
    (0 ≤ (adsrProcess e dt).output ∧ (adsrProcess e dt).output ≤ 1) ∧
      ((adsrProcess e dt).state = .idle → (adsrProcess e dt).output = 0) ∧
      ((adsrProcess e dt).state = .sustain →
        (adsrProcess e dt).output = (adsrProcess e dt).sustain) := by
  have hinv := adsrInv_process e dt h hdt
  exact ⟨⟨hinv.1, hinv.2.1⟩, adsrProcess_state_output e dt⟩

/-- C2: for every sequence of gate-on/gate-off events and process steps,
with attack/decay/release set through the setters (clamped to a minimum
of 1 ms) and sustain set through its setter (clamped to `[0,1]`), the
ADSR envelope's output stays within `[0,1]` after every process call,
equals exactly `0` whenever the state is Idle, and equals exactly the
sustain level whenever the state is Sustain.  Both the pad and the pluck
variant are covered via the `pluck` flag. -/
theorem c2_adsr_output_bounds (pluck : Bool) (evs : List AdsrEvent) (dt : ℚ)
    (hevs : stepsNonneg evs) (hdt : 0 ≤ dt) :
    let e := adsrProcess (adsrRun pluck (if pluck then pluckInit else padInit) evs) dt
    (0 ≤ e.output ∧ e.output ≤ 1) ∧
      (e.state = .idle → e.output = 0) ∧
      (e.state = .sustain → e.output = e.sustain) :=
  adsrProcess_post (adsrRun pluck (if pluck then pluckInit else padInit) evs) dt
    (adsrInv_run pluck _ evs
      (by cases pluck <;> simp [adsrInv_padInit, adsrInv_pluckInit]) hevs)
    hdt

/-- Witness for C2 at a concrete run: pad variant, gate-on then one
half-of-attack process step, then the audited process step. -/
theorem c2_adsr_output_bounds_witness :
    stepsNonneg [AdsrEvent.gate true, AdsrEvent.step 1] ∧ (0 : ℚ) ≤ 1 ∧
      (let e := adsrProcess
        (adsrRun false (if false then pluckInit else padInit)
          [AdsrEvent.gate true, AdsrEvent.step 1]) 1;
        (0 ≤ e.output ∧ e.output ≤ 1) ∧
          (e.state = .idle → e.output = 0) ∧
          (e.state = .sustain → e.output = e.sustain)) :=
  ⟨by decide, by norm_num,
    c2_adsr_output_bounds false [AdsrEvent.gate true, AdsrEvent.step 1] 1
      (by decide) (by norm_num)⟩

/-- A pad envelope caught mid-release: state RELEASE, output one half. -/
def padInRelease : Adsr := { padInit with state := .release, output := 1/2 }

/-- C6 counterexample: in the pad variant a gate-on arriving in RELEASE
does not enter ATTACK (the code only retriggers from IDLE), refuting the
claim that Attack is entered exactly from Idle or Release. -/
theorem c6_counterexample :
    (gatePad padInRelease true).state = AdsrState.release ∧
      AdsrState.release ≠ AdsrState.attack := by
  constructor
  · rfl
  · decide

/-- C6 amended: the pad variant's gate-on enters Attack exactly when the
current state is Idle; a gate-on in Attack, Decay, Sustain, or Release
leaves state and output unchanged.  The pluck variant instead forces
state ATTACK and output `0` on every gate-on. -/
theorem c6_gate_retrigger_policy (e : Adsr) :
    ((gatePad e true).state = (if e.state = .idle then .attack else e.state)) ∧
      ((gatePad e true).output = e.output) ∧
      (gatePluck e true = { e with state := .attack, output := 0 }) := by
  refine ⟨?_, ?_, ?_⟩
  · unfold gatePad
    by_cases hs : e.state = .idle <;> simp [hs]
  · unfold gatePad
    by_cases hs : e.state = .idle <;> simp [hs]
  · unfold gatePluck
    simp

/-! ## Wavetable mip generation (src/WT_SURGE_X.cpp lines 157-168 and 181-192)

`generateDefault` and `loadWav` run the identical inner mip loop over
whatever level-0 table they produced, so the loop is embedded once as
`mipFromBase`, a function of an arbitrary level-0 table.  The C idiom
`(k % TABLE_SIZE + TABLE_SIZE) % TABLE_SIZE` (truncating `%` on `int`)
equals the Euclidean remainder, which is what `wrapIdx` computes. -/

def TABLE_SIZE : ℕ := 2048

/-- Wrap a signed sample index into `[0, TABLE_SIZE)` circularly. -/
def wrapIdx (k : ℤ) : ℕ := ((k % (TABLE_SIZE : ℤ) + TABLE_SIZE) % (TABLE_SIZE : ℤ)).toNat

/-- Number of iterations of `for (int k = lo; k <= hi; k += step)`. -/
def iterCount (lo hi step : ℤ) : ℕ :=
  if lo ≤ hi then ((hi - lo) / step).toNat + 1 else 0

/-- Mip level `m` derived from level-0 table `t0`, as generated by the
loops at WT_SURGE_X.cpp lines 157-168 / 181-192: at index `s`, sum
`t0` over `k = s - step/2, ..., s + step/2` in strides of `step = 2^m`
(circularly wrapped), divide by the iteration count `n`; the `n = 0`
fallback copies the previous mip level. -/
def mipFromBase (t0 : ℕ → ℚ) : ℕ → ℕ → ℚ
  | 0, s => t0 s
  | m + 1, s =>
      let step : ℤ := 2 ^ (m + 1)
      let lo : ℤ := (s : ℤ) - step / 2
      let hi : ℤ := (s : ℤ) + step / 2
      let n : ℕ := iterCount lo hi step
      if 0 < n then
        (∑ j ∈ Finset.range n, t0 (wrapIdx (lo + (j : ℤ) * step))) / (n : ℚ)
      else mipFromBase t0 m s

/-- Modelled from the spec's words, for the refinement comparison: the
average of a window of `2^k` neighboring, circularly wrapped level-0
samples centered at `s`. -/
def specBoxAvg (t0 : ℕ → ℚ) (k : ℕ) (s : ℕ) : ℚ :=
  (∑ j ∈ Finset.range (2 ^ k),
    t0 (wrapIdx ((s : ℤ) - 2 ^ (k - 1) + (j : ℤ)))) / ((2 ^ k : ℕ) : ℚ)

theorem mipFromBase_two_point (t0 : ℕ → ℚ) (m s : ℕ) :
    mipFromBase t0 (m + 1) s =
      (t0 (wrapIdx ((s : ℤ) - 2 ^ m)) + t0 (wrapIdx ((s : ℤ) + 2 ^ m))) / 2 := by
  have hstep : (2 : ℤ) ^ (m + 1) / 2 = 2 ^ m := by
    rw [pow_succ]
    exact Int.mul_ediv_cancel _ two_ne_zero
  have hcount :
      iterCount ((s : ℤ) - 2 ^ (m + 1) / 2) ((s : ℤ) + 2 ^ (m + 1) / 2) (2 ^ (m + 1)) = 2 := by
    rw [hstep]
    unfold iterCount
    have hle : (s : ℤ) - 2 ^ m ≤ (s : ℤ) + 2 ^ m := by
      have : (0 : ℤ) < 2 ^ m := by positivity
      linarith
    rw [if_pos hle]
    have hdiff : (s : ℤ) + 2 ^ m - ((s : ℤ) - 2 ^ m) = 2 ^ (m + 1) := by ring
    have hne : (2 : ℤ) ^ (m + 1) ≠ 0 := by positivity
    rw [hdiff, Int.ediv_self hne]
    rfl
  unfold mipFromBase
  simp only [hcount]
  norm_num [Finset.sum_range_succ]
  rw [hstep]
  have h2 : (s : ℤ) - 2 ^ m + 2 ^ (m + 1) = (s : ℤ) + 2 ^ m := by
    rw [pow_succ]; ring
  rw [h2]

/-- Unit-impulse level-0 table: `1` at index `0`, `0` elsewhere. -/
def deltaTable : ℕ → ℚ := fun s => if s = 0 then 1 else 0

/-- C1 counterexample: on the unit-impulse level-0 table, mip level 2 at
index 0 is `0` (the code averages only the two window endpoints, at
wrapped indices 2046 and 2), while the average of the `2^2`-sample
window of level 0 centered there is `1/4`; so mip levels are not the
claimed box-filtered window averages. -/
theorem c1_counterexample :
    mipFromBase deltaTable 2 0 = 0 ∧ specBoxAvg deltaTable 2 0 = 1/4 ∧
      (0 : ℚ) ≠ 1/4 := by
  refine ⟨?_, ?_, by norm_num⟩
  · rw [show (2 : ℕ) = 1 + 1 from rfl, mipFromBase_two_point]
    norm_num [wrapIdx, deltaTable, TABLE_SIZE]
  · unfold specBoxAvg
    rw [show (2 : ℕ) ^ 2 = 4 from rfl]
    rw [Finset.sum_range_succ, Finset.sum_range_succ, Finset.sum_range_succ,
      Finset.sum_range_succ, Finset.sum_range_zero]
    have e0 : deltaTable (wrapIdx (((0 : ℕ) : ℤ) - 2 ^ (2 - 1) + ((0 : ℕ) : ℤ))) = 0 := by rfl
    have e1 : deltaTable (wrapIdx (((0 : ℕ) : ℤ) - 2 ^ (2 - 1) + ((1 : ℕ) : ℤ))) = 0 := by rfl
    have e2 : deltaTable (wrapIdx (((0 : ℕ) : ℤ) - 2 ^ (2 - 1) + ((2 : ℕ) : ℤ))) = 1 := by rfl
    have e3 : deltaTable (wrapIdx (((0 : ℕ) : ℤ) - 2 ^ (2 - 1) + ((3 : ℕ) : ℤ))) = 0 := by rfl
    rw [e0, e1, e2, e3]
    norm_num

/-- C1 amended: for every level-0 table, every frame, and every mip
level `k = m+1` with `1 ≤ k`, the generated mip value at index `s` is
the average of exactly TWO circularly wrapped level-0 samples — the two
endpoints `s - 2^(k-1)` and `s + 2^(k-1)` of the `2^k`-wide window — not
the average of the whole window. -/
theorem c1_mip_two_point_average (t0 : ℕ → ℚ) (m s : ℕ) :
    mipFromBase t0 (m + 1) s =
      (t0 (wrapIdx ((s : ℤ) - 2 ^ m)) + t0 (wrapIdx ((s : ℤ) + 2 ^ m))) / 2 :=
  mipFromBase_two_point t0 m s

/-! ## WT_SURGE_X output soft clipper (src/WT_SURGE_X.cpp lines 347-349, 434-437) -/

/-- `WT_SURGE_X::softClip`: `x / (1 + |x|)`. -/
def softClip (x : ℚ) : ℚ := x / (1 + |x|)

/-- Final output stage of `WT_SURGE_X::process` (lines 434-437): the
accumulated unison mix is scaled by `level * 5` and soft-clipped, and
the result is written to the output voltage unchanged. -/
def wtFinalOut (mix level : ℚ) : ℚ := softClip (mix * level * 5)

theorem softClip_abs_lt_one (x : ℚ) : |softClip x| < 1 := by
  have hpos : 0 < 1 + |x| := by positivity
  have : |softClip x| = |x| / (1 + |x|) := by
    unfold softClip
    rw [abs_div, abs_of_pos hpos]
  rw [this, div_lt_one hpos]
  linarith

/-- C9: for every accumulated mix value and level, both output voltages
of WT_SURGE_X lie strictly within `(-1, 1)` volts: the soft clipper
`x/(1+|x|)` is the last operation applied before `setVoltage`. -/
theorem c9_output_strictly_inside_one (mix level : ℚ) :
    -1 < wtFinalOut mix level ∧ wtFinalOut mix level < 1 := by
  have h := softClip_abs_lt_one (mix * level * 5)
  rw [abs_lt] at h
  exact ⟨h.1, h.2⟩

/-! ## DelayLine (src/StereoEffects.cpp lines 5-37)

`size_t` arithmetic in `read` is modelled exactly: `writePos - delay`
underflows modulo `2^64`, then `+ size` wraps modulo `2^64` again, and
finally `% size` is taken. -/

def UINT64 : ℕ := 2 ^ 64

structure DelayLine where
  size : ℕ
  buffer : ℕ → ℚ
  writePos : ℕ

/-- `DelayLine::push`: store at the write cursor, advance it modulo `size`. -/
def dlPush (dl : DelayLine) (sample : ℚ) : DelayLine :=
  { dl with
    buffer := Function.update dl.buffer dl.writePos sample
    writePos := (dl.writePos + 1) % dl.size }

/-- `DelayLine::read`: clamp `delay` to `size - 1`, then return
`buffer[(writePos - delay + size) % size]` in `size_t` arithmetic. -/
def dlRead (dl : DelayLine) (delay : ℕ) : ℚ :=
  dl.buffer
    (((dl.writePos + (UINT64 - (if dl.size ≤ delay then dl.size - 1 else delay))) % UINT64
        + dl.size) % UINT64 % dl.size)

/-- Push a whole list of samples in order. -/
def dlPushMany (dl : DelayLine) (vs : List ℚ) : DelayLine := vs.foldl dlPush dl

/-- The `size_t` wraparounds in `read` cancel: for in-range cursor and
delay the accessed slot is `(writePos + size - delay) % size`. -/
theorem dlRead_eq (dl : DelayLine) (delay : ℕ) (hwp : dl.writePos < dl.size)
    (hd : delay < dl.size) (hbig : 2 * dl.size ≤ UINT64) :
    dlRead dl delay = dl.buffer ((dl.writePos + dl.size - delay) % dl.size) := by
  unfold dlRead
  rw [if_neg (not_le.mpr hd)]
  have hU : UINT64 = 18446744073709551616 := by norm_num [UINT64]
  rw [hU] at hbig ⊢
  have hidx :
      ((dl.writePos + (18446744073709551616 - delay)) % 18446744073709551616 + dl.size) %
          18446744073709551616 = dl.writePos + dl.size - delay := by
    omega
  rw [hidx]

theorem dlPush_size (dl : DelayLine) (x : ℚ) : (dlPush dl x).size = dl.size := rfl

theorem dlPushMany_size (dl : DelayLine) (vs : List ℚ) :
    (dlPushMany dl vs).size = dl.size := by
  induction vs generalizing dl with
  | nil => rfl
  | cons v vs ih => exact (ih (dlPush dl v)).trans rfl

theorem dlPushMany_writePos (dl : DelayLine) (vs : List ℚ) (h0 : 0 < dl.size)
    (hwp : dl.writePos < dl.size) :
    (dlPushMany dl vs).writePos = (dl.writePos + vs.length) % dl.size := by
  induction vs generalizing dl with
  | nil => exact (Nat.mod_eq_of_lt hwp).symm
  | cons v vs ih =>
      have step := ih (dlPush dl v) h0 (Nat.mod_lt _ h0)
      simp only [dlPushMany, List.foldl_cons] at step ⊢
      rw [step]
      simp only [dlPush, List.length_cons]
      rw [Nat.mod_add_mod]
      congr 1
      omega

theorem dlPushMany_buffer_untouched (dl : DelayLine) (vs : List ℚ) (q : ℕ)
    (h0 : 0 < dl.size) (hwp : dl.writePos < dl.size)
    (hq : ∀ j < vs.length, (dl.writePos + j) % dl.size ≠ q) :
    (dlPushMany dl vs).buffer q = dl.buffer q := by
  induction vs generalizing dl with
  | nil => rfl
  | cons v vs ih =>
      have hrest : ∀ j < vs.length, ((dlPush dl v).writePos + j) % (dlPush dl v).size ≠ q := by
        intro j hj
        show ((dl.writePos + 1) % dl.size + j) % dl.size ≠ q
        rw [Nat.mod_add_mod]
        have := hq (1 + j) (by rw [List.length_cons]; omega)
        rwa [show dl.writePos + (1 + j) = dl.writePos + 1 + j by omega] at this
      have step := ih (dlPush dl v) h0 (Nat.mod_lt _ h0) hrest
      simp only [dlPushMany, List.foldl_cons] at step ⊢
      rw [step]
      show Function.update dl.buffer dl.writePos v q = dl.buffer q
      have hne : q ≠ dl.writePos := by
        have := hq 0 (by rw [List.length_cons]; omega)
        rw [Nat.add_zero, Nat.mod_eq_of_lt hwp] at this
        exact fun hcontra => this hcontra.symm
      exact Function.update_noteq hne v dl.buffer

/-- C8: for every DelayLine of capacity `S` and every offset
`1 ≤ k ≤ S-1`, after `push(x)` followed by `k-1` further pushes,
`read(k)` returns exactly `x`. -/
theorem c8_delayline_roundtrip (dl : DelayLine) (x : ℚ) (vs : List ℚ) (k : ℕ)
    (hk1 : 1 ≤ k) (hk2 : k ≤ dl.size - 1) (hwp : dl.writePos < dl.size)
    (hlen : vs.length = k - 1) (hbig : 2 * dl.size ≤ UINT64) :
    dlRead (dlPushMany (dlPush dl x) vs) k = x := by
  set S := dl.size with hSdef
  have hS : 0 < S := lt_of_le_of_lt (Nat.zero_le _) hwp
  have hkS : k < S := by omega
  set final := dlPushMany (dlPush dl x) vs with hfinal
  have hfsize : final.size = S := by
    rw [hfinal, dlPushMany_size]
    rfl
  have hfwp : final.writePos = (dl.writePos + k) % S := by
    rw [hfinal, dlPushMany_writePos (dlPush dl x) vs (by exact hS) (Nat.mod_lt _ hS)]
    show ((dl.writePos + 1) % S + vs.length) % S = _
    rw [Nat.mod_add_mod]
    congr 1
    omega
  have hread := dlRead_eq final k (by rw [hfsize]; rw [hfwp]; exact Nat.mod_lt _ hS)
    (by rw [hfsize]; exact hkS) (by rw [hfsize]; exact hbig)
  rw [hread, hfsize, hfwp]
  have hidx : ((dl.writePos + k) % S + S - k) % S = dl.writePos := by
    rcases Nat.lt_or_ge (dl.writePos + k) S with hc | hc
    · rw [Nat.mod_eq_of_lt hc, show dl.writePos + k + S - k = dl.writePos + S by omega,
        Nat.add_mod_right, Nat.mod_eq_of_lt hwp]
    · have e1 : (dl.writePos + k) % S = dl.writePos + k - S := by
        rw [Nat.mod_eq_sub_mod hc]
        exact Nat.mod_eq_of_lt (by omega)
      rw [e1, show dl.writePos + k - S + S - k = dl.writePos by omega, Nat.mod_eq_of_lt hwp]
  rw [hidx, hfinal]
  have huntouched :
      (dlPushMany (dlPush dl x) vs).buffer dl.writePos = (dlPush dl x).buffer dl.writePos := by
    apply dlPushMany_buffer_untouched (dlPush dl x) vs dl.writePos hS (Nat.mod_lt _ hS)
    intro j hj
    show ((dl.writePos + 1) % S + j) % S ≠ dl.writePos
    rw [Nat.mod_add_mod]
    intro hcontra
    rcases Nat.lt_or_ge (dl.writePos + 1 + j) S with hc | hc
    · rw [Nat.mod_eq_of_lt hc] at hcontra
      omega
    · have e1 : (dl.writePos + 1 + j) % S = dl.writePos + 1 + j - S := by
        rw [Nat.mod_eq_sub_mod hc]
        exact Nat.mod_eq_of_lt (by omega)
      rw [e1] at hcontra
      omega
  rw [huntouched]
  show Function.update dl.buffer dl.writePos x dl.writePos = x
  exact Function.update_same dl.writePos x dl.buffer

/-- A concrete four-slot delay line for the witnesses. -/
def dlExample : DelayLine := { size := 4, buffer := fun _ => 0, writePos := 2 }

/-- Witness for C8: capacity 4, cursor at 2, write `5`, one further
push, then `read 2` returns `5`. -/
theorem c8_delayline_roundtrip_witness :
    1 ≤ 2 ∧ 2 ≤ dlExample.size - 1 ∧ dlExample.writePos < dlExample.size ∧
      ([(7 : ℚ)].length = 2 - 1) ∧ 2 * dlExample.size ≤ UINT64 ∧
      dlRead (dlPushMany (dlPush dlExample 5) [(7 : ℚ)]) 2 = 5 :=
  ⟨by norm_num, by norm_num [dlExample], by norm_num [dlExample], by norm_num,
    by norm_num [dlExample, UINT64],
    c8_delayline_roundtrip dlExample 5 [(7 : ℚ)] 2 (by norm_num) (by norm_num [dlExample])
      (by norm_num [dlExample]) (by norm_num) (by norm_num [dlExample, UINT64])⟩

/-! ## SimpleReverb (src/StereoEffects.cpp lines 40-88, 223-234)

Eight comb filters (delay lines) processed per sample; the feedback
field is written verbatim by `setFeedback` and the only call site,
`StereoEffects::process`, passes `damping * 0.7f` with the damping
parameter configured on `[0, 1]`. -/

def NUM_DELAYS : ℕ := 8

structure SimpleReverb where
  lines : List DelayLine
  delayTimes : List ℕ
  feedback : ℚ

/-- `SimpleReverb::setFeedback`: stores `fb` unchanged. -/
def setFeedback (rv : SimpleReverb) (fb : ℚ) : SimpleReverb := { rv with feedback := fb }

/-- The value `StereoEffects::process` (line 226-227) configures:
`damping * 0.7f`. -/
def reverbConfigFeedback (damping : ℚ) : ℚ := damping * (7/10)

/-- One comb filter inside `SimpleReverb::process`: read the delayed
sample, push `input + delayed * feedback`, report the delayed sample. -/
def combStep (fb input : ℚ) (dl : DelayLine) (d : ℕ) : DelayLine × ℚ :=
  (dlPush dl (input + dlRead dl d * fb), dlRead dl d)

/-- `SimpleReverb::process`: run every comb filter, output the equally
weighted average (each delayed sample scaled by `1/NUM_DELAYS`). -/
def reverbProcess (rv : SimpleReverb) (input : ℚ) : SimpleReverb × ℚ :=
  let results := (rv.lines.zip rv.delayTimes).map fun p => combStep rv.feedback input p.1 p.2
  ({ rv with lines := results.map Prod.fst },
    (results.map Prod.snd).sum * (1 / (NUM_DELAYS : ℚ)))

/-- Iterate `SimpleReverb::process` over an input stream, collecting the
outputs. -/
def runReverb (rv : SimpleReverb) : List ℚ → SimpleReverb × List ℚ
  | [] => (rv, [])
  | x :: xs =>
      let step := reverbProcess rv x
      let rest := runReverb step.1 xs
      (rest.1, step.2 :: rest.2)

/-- All slots of every delay line bounded in magnitude by `M`. -/
def LinesBounded (M : ℚ) (ls : List DelayLine) : Prop :=
  ∀ dl ∈ ls, ∀ i : ℕ, |dl.buffer i| ≤ M

theorem list_abs_sum_le (l : List ℚ) (M : ℚ)
    (h : ∀ y ∈ l, |y| ≤ M) : |l.sum| ≤ l.length * M := by
  induction l with
  | nil => simp
  | cons x xs ih =>
      have hx : |x| ≤ M := h x (List.mem_cons_self _ _)
      have hxs : |xs.sum| ≤ xs.length * M :=
        ih fun y hy => h y (List.mem_cons_of_mem _ hy)
      calc |(x :: xs).sum| = |x + xs.sum| := by rw [List.sum_cons]
    _ ≤ |x| + |xs.sum| := abs_add _ _
    _ ≤ M + xs.length * M := add_le_add hx hxs
    _ = (x :: xs).length * M := by rw [List.length_cons]; push_cast; ring

theorem reverbProcess_lines_length (rv : SimpleReverb) (input : ℚ) :
    (reverbProcess rv input).1.lines.length = min rv.lines.length rv.delayTimes.length := by
  simp [reverbProcess]

theorem reverbProcess_delayTimes (rv : SimpleReverb) (input : ℚ) :
    (reverbProcess rv input).1.delayTimes = rv.delayTimes := rfl

theorem reverbProcess_feedback (rv : SimpleReverb) (input : ℚ) :
    (reverbProcess rv input).1.feedback = rv.feedback := rfl

/-- One reverb step keeps every delay-line slot bounded by `M` and emits
an output bounded by `M`, provided `|input| + |feedback| * M ≤ M`. -/
theorem reverbProcess_bounded (rv : SimpleReverb) (input M : ℚ)
    (hlen : rv.lines.length = NUM_DELAYS) (hM : 0 ≤ M)
    (hbound : LinesBounded M rv.lines)
    (hstep : |input| + |rv.feedback| * M ≤ M) :
    LinesBounded M (reverbProcess rv input).1.lines ∧
      |(reverbProcess rv input).2| ≤ M := by
  have hdelayed : ∀ dl ∈ rv.lines, ∀ d : ℕ, |dlRead dl d| ≤ M := by
    intro dl hdl d
    exact hbound dl hdl _
  constructor
  · intro dl' hdl' i
    simp only [reverbProcess, List.map_map, List.mem_map] at hdl'
    obtain ⟨⟨dl, d⟩, hmem, heq⟩ := hdl'
    have hdlmem : dl ∈ rv.lines := List.of_mem_zip hmem |>.1
    have hnew : |input + dlRead dl d * rv.feedback| ≤ M := by
      calc |input + dlRead dl d * rv.feedback|
          ≤ |input| + |dlRead dl d * rv.feedback| := abs_add _ _
        _ = |input| + |dlRead dl d| * |rv.feedback| := by rw [abs_mul]
        _ ≤ |input| + M * |rv.feedback| := by
            have := hdelayed dl hdlmem d
            have habs : (0 : ℚ) ≤ |rv.feedback| := abs_nonneg _
            nlinarith [abs_nonneg (dlRead dl d)]
        _ = |input| + |rv.feedback| * M := by ring
        _ ≤ M := hstep
    rw [← heq]
    show |Function.update dl.buffer dl.writePos (input + dlRead dl d * rv.feedback) i| ≤ M
    rcases eq_or_ne i dl.writePos with hi | hi
    · rw [hi, Function.update_same]
      exact hnew
    · rw [Function.update_noteq hi]
      exact hbound dl hdlmem i
  · simp only [reverbProcess, List.map_map]
    have hall : ∀ y ∈ ((rv.lines.zip rv.delayTimes).map
        fun p => ((combStep rv.feedback input p.1 p.2).2)), |y| ≤ M := by
      intro y hy
      simp only [List.mem_map] at hy
      obtain ⟨⟨dl, d⟩, hmem, heq⟩ := hy
      rw [← heq]
      exact hdelayed dl (List.of_mem_zip hmem).1 d
    have hlen2 : ((rv.lines.zip rv.delayTimes).map
        fun p => ((combStep rv.feedback input p.1 p.2).2)).length ≤ NUM_DELAYS := by
      rw [List.length_map, List.length_zip, hlen]
      exact min_le_left _ _
    have hsum := list_abs_sum_le _ M hall
    have hND : (0 : ℚ) < (NUM_DELAYS : ℚ) := by norm_num [NUM_DELAYS]
    calc |(((rv.lines.zip rv.delayTimes).map
            fun p => ((combStep rv.feedback input p.1 p.2).2)).sum) * (1 / (NUM_DELAYS : ℚ))|
        = |(((rv.lines.zip rv.delayTimes).map
            fun p => ((combStep rv.feedback input p.1 p.2).2)).sum)| * (1 / (NUM_DELAYS : ℚ)) := by
          rw [abs_mul]
          congr 1
          exact abs_of_pos (by norm_num [NUM_DELAYS])
      _ ≤ ((NUM_DELAYS : ℚ) * M) * (1 / (NUM_DELAYS : ℚ)) := by
          apply mul_le_mul_of_nonneg_right _ (by norm_num [NUM_DELAYS])
          refine le_trans hsum ?_
          apply mul_le_mul_of_nonneg_right _ hM
          exact_mod_cast hlen2
      _ = M := by
          have h8 : ((NUM_DELAYS : ℕ) : ℚ) = 8 := by norm_num [NUM_DELAYS]
          rw [h8]
          ring


/-- Over an arbitrarily long run every output stays bounded by `M`. -/
theorem runReverb_bounded (inputs : List ℚ) (rv : SimpleReverb) (M : ℚ)
    (hlen : rv.lines.length = NUM_DELAYS) (hM : 0 ≤ M)
    (hbound : LinesBounded M rv.lines)
    (htimes : NUM_DELAYS ≤ rv.delayTimes.length)
    (hsteps : ∀ x ∈ inputs, |x| + |rv.feedback| * M ≤ M) :
    ∀ y ∈ (runReverb rv inputs).2, |y| ≤ M := by
  induction inputs generalizing rv with
  | nil => intro y hy; simp [runReverb] at hy
  | cons x xs ih =>
      have hx := hsteps x (List.mem_cons_self _ _)
      have hstep := reverbProcess_bounded rv x M hlen hM hbound hx
      intro y hy
      simp only [runReverb, List.mem_cons] at hy
      rcases hy with hy | hy
      · rw [hy]; exact hstep.2
      · refine ih (reverbProcess rv x).1 ?_ hstep.1 ?_ ?_ y hy
        · rw [reverbProcess_lines_length, hlen]
          exact Nat.min_eq_left htimes
        · rw [reverbProcess_delayTimes]; exact htimes
        · intro z hz
          rw [reverbProcess_feedback]
          exact hsteps z (List.mem_cons_of_mem _ hz)

/-- A concrete reverb (eight unit delay lines) for the counterexample
and the witness. -/
def reverbExample : SimpleReverb :=
  { lines := List.replicate 8 { size := 1, buffer := fun _ => 0, writePos := 0 }
    delayTimes := List.replicate 8 0
    feedback := 1/2 }

/-- C3 counterexample: `setFeedback` neither rejects nor clamps values
`≥ 1`; after `setFeedback(1.5)` the feedback coefficient stored for use
by `process` is `1.5`, not less than `1`. -/
theorem c3_counterexample :
    (setFeedback reverbExample (3/2)).feedback = 3/2 ∧
      ¬ ((setFeedback reverbExample (3/2)).feedback < 1) := by
  constructor
  · rfl
  · show ¬ ((3/2 : ℚ) < 1)
    norm_num

/-- C3 amended: `setFeedback` stores its argument unclamped, but the
only call site (`StereoEffects::process`) always passes
`damping * 0.7` with the damping parameter in `[0, 1]`, so the feedback
coefficient used by `SimpleReverb::process` is at most `0.7 < 1`; with
that coefficient, inputs bounded by `B` keep every reverb output
bounded by `(10/3) * B` over arbitrarily long runs. -/
theorem c3_feedback_lt_one_and_bounded (rv : SimpleReverb) (damping B : ℚ)
    (inputs : List ℚ) (hd0 : 0 ≤ damping) (hd1 : damping ≤ 1) (hB : 0 ≤ B)
    (hlen : rv.lines.length = NUM_DELAYS)
    (htimes : NUM_DELAYS ≤ rv.delayTimes.length)
    (hbound : LinesBounded ((10/3) * B) rv.lines)
    (hin : ∀ x ∈ inputs, |x| ≤ B) :
    (setFeedback rv (reverbConfigFeedback damping)).feedback < 1 ∧
      ∀ y ∈ (runReverb (setFeedback rv (reverbConfigFeedback damping)) inputs).2,
        |y| ≤ (10/3) * B := by
  have hfb : (setFeedback rv (reverbConfigFeedback damping)).feedback = damping * (7/10) := rfl
  constructor
  · rw [hfb]; nlinarith
  · apply runReverb_bounded inputs (setFeedback rv (reverbConfigFeedback damping))
      ((10/3) * B) (by exact hlen) (by positivity) (by exact hbound) (by exact htimes)
    intro x hx
    rw [hfb]
    have hxB := hin x hx
    have habs : |damping * (7/10)| = damping * (7/10) := abs_of_nonneg (by positivity)
    rw [habs]
    nlinarith

/-- Witness for C3 (amended): damping `1`, one input sample of
magnitude `1` through the example reverb. -/
theorem c3_feedback_lt_one_and_bounded_witness :
    (0 : ℚ) ≤ 1 ∧ (1 : ℚ) ≤ 1 ∧ (0 : ℚ) ≤ 1 ∧
      reverbExample.lines.length = NUM_DELAYS ∧
      NUM_DELAYS ≤ reverbExample.delayTimes.length ∧
      LinesBounded ((10/3) * 1) reverbExample.lines ∧
      (∀ x ∈ [(1 : ℚ)], |x| ≤ 1) ∧
      ((setFeedback reverbExample (reverbConfigFeedback 1)).feedback < 1 ∧
        ∀ y ∈ (runReverb (setFeedback reverbExample (reverbConfigFeedback 1)) [(1 : ℚ)]).2,
          |y| ≤ (10/3) * 1) :=
  ⟨by norm_num, by norm_num, by norm_num,
    by norm_num [reverbExample, NUM_DELAYS],
    by norm_num [reverbExample, NUM_DELAYS],
    by
      intro dl hdl i
      simp only [reverbExample, List.mem_replicate] at hdl
      rw [hdl.2]
      norm_num,
    by intro x hx; simp at hx; rw [hx]; norm_num,
    c3_feedback_lt_one_and_bounded reverbExample 1 1 [(1 : ℚ)] (by norm_num) (by norm_num)
      (by norm_num) (by norm_num [reverbExample, NUM_DELAYS])
      (by norm_num [reverbExample, NUM_DELAYS])
      (by
        intro dl hdl i
        simp only [reverbExample, List.mem_replicate] at hdl
        rw [hdl.2]
        norm_num)
      (by intro x hx; simp at hx; rw [hx]; norm_num)⟩


/-! ## BuildupLooper (src/BuildupLooper.cpp)

The looper's ring buffer, BUILD toggle, and state machine are embedded
as a state-transition function `looperStep`, parametrized over the
per-step values the full `process` computes earlier in the same call
(loop length, advance rate, exit-fade total).  The loop-length and
crossfade-length computations of lines 182-211 are embedded separately
as `computeLClocked` / `computeLFree` / `computeNfade`.  C float-to-int
casts truncate toward zero (`cTruncQ`). -/

def RING_MAX : ℕ := 480000

def LOOP_MAX : ℕ := 384000

/-- C cast of a nonnegative-or-negative float to `int`: truncation
toward zero. -/
def cTruncQ (x : ℚ) : ℤ := if x < 0 then ⌈x⌉ else ⌊x⌋

/-- Rack `math::clamp` on `int`: `max(min(x, b), a)`. -/
def rackClampI (x a b : ℤ) : ℤ := max (min x b) a

/-- Bar count (lines 197-199): `1 << clamp((int)(barParam + 0.5), 0, 3)`. -/
def computeBars (barParam : ℚ) : ℕ :=
  2 ^ (rackClampI (cTruncQ (barParam + 1/2)) 0 3).toNat

/-- Smoothed beat-period update on a clock rising edge (lines 187-191). -/
def updateBeatPeriod (prev : ℚ) (period : ℤ) (sr : ℚ) : ℚ :=
  if 0 < period ∧ period < cTruncQ (sr * 4) then
    (1/10) * prev + (9/10) * (period : ℚ)
  else prev

/-- Loop length in the clocked case (lines 184-205). -/
def computeLClocked (barParam beatPeriod smoothedLoopSec sr : ℚ) (ringSize : ℕ) : ℤ :=
  rackClampI
    (if 0 < beatPeriod then cTruncQ (((computeBars barParam * 4 : ℕ) : ℚ) * beatPeriod)
     else cTruncQ (smoothedLoopSec * sr))
    1
    (if 0 < ringSize then min (LOOP_MAX : ℤ) (ringSize : ℤ) else (LOOP_MAX : ℤ))

/-- Loop length in the free-running case (lines 207-208). -/
def computeLFree (smoothedLoopSec sr : ℚ) : ℤ :=
  rackClampI (cTruncQ (smoothedLoopSec * sr)) 1 (LOOP_MAX : ℤ)

/-- Crossfade window length (lines 210-211):
`clamp((int)(10ms * sr), 4, L_samples / 2)`. -/
def computeNfade (sr : ℚ) (L : ℤ) : ℤ :=
  rackClampI (cTruncQ (10 * (1/1000) * sr)) 4 (L / 2)

/-- Stereo ring buffer of the looper (fields of lines 73-76). -/
structure RingBuf where
  dataL : ℕ → ℚ
  dataR : ℕ → ℚ
  size : ℕ
  wp : ℕ

/-- The per-step ring write (lines 221-223). -/
def writeRing (r : RingBuf) (xy : ℚ × ℚ) : RingBuf :=
  { r with
    dataL := Function.update r.dataL r.wp xy.1
    dataR := Function.update r.dataR r.wp xy.2
    wp := (r.wp + 1) % r.size }

/-- The zero-filled ring `ensureBuffers` allocates (lines 131-142). -/
def freshRing (sz : ℕ) : RingBuf :=
  { dataL := fun _ => 0, dataR := fun _ => 0, size := sz, wp := 0 }

/-- Ring state after writing an input history into a fresh ring. -/
def ringOfHistory (sz : ℕ) (hist : List (ℚ × ℚ)) : RingBuf :=
  hist.foldl writeRing (freshRing sz)

inductive LooperState where
  | idle
  | build
  | exitFade
deriving DecidableEq, Repr

structure Looper where
  ring : RingBuf
  loopL : ℕ → ℚ
  loopR : ℕ → ℚ
  loopSamples : ℕ
  state : LooperState
  playheadL : ℚ
  playheadR : ℚ
  rampSamples : ℕ
  exitFadeSamples : ℚ
  buttonToggleState : Bool
  prevButtonPressed : Bool

/-- Per-step inputs of `process`, including the per-step derived values
computed earlier in the same call (`Lsamples` from lines 182-209,
`rate` from lines 253-257, `exitFadeTotal` from lines 144-152). -/
structure LooperIn where
  inL : ℚ
  inR : ℚ
  gateHigh : Bool
  trigConnected : Bool
  buttonPressed : Bool
  Lsamples : ℕ
  rate : ℚ
  exitFadeTotal : ℚ

/-- Toggle state after the edge detector of lines 157-161: flips on any
change of the button value. -/
def nextToggle (st : Looper) (io : LooperIn) : Bool :=
  if io.buttonPressed ≠ st.prevButtonPressed then !st.buttonToggleState
  else st.buttonToggleState

/-- Line 164: `wantBuild = gateHigh || (!trigConnected && buttonToggleState)`
with the freshly updated toggle. -/
def wantBuild (st : Looper) (io : LooperIn) : Bool :=
  io.gateHigh || (!io.trigConnected && nextToggle st io)

/-- Playhead wrap: the while-loop pair of lines 261-264 brings the
position into `[0, len)` when `len > 0`. -/
def wrapPos (p : ℚ) (len : ℕ) : ℚ :=
  if 0 < len then p - (len : ℚ) * ⌊p / (len : ℚ)⌋ else p

/-- The EXIT_FADE block (lines 288-300), entered with the current
exit-fade sample count `efs0` (reset to 0 on the BUILD→EXIT_FADE
transition, which falls through into this block in the same call). -/
def exitFadeBody (st1 : Looper) (efs0 : ℚ) (io : LooperIn) : Looper :=
  { st1 with
    exitFadeSamples := efs0 + 1
    state := if io.exitFadeTotal ≤ efs0 + 1 then .idle else .exitFade }

/-- One call of `BuildupLooperModule::process` (state updates of lines
148-300): update the BUILD toggle, write the ring, then run the
IDLE / BUILD / EXIT_FADE state machine. -/
def looperStep (st : Looper) (io : LooperIn) : Looper :=
  let wb := wantBuild st io
  let ring := writeRing st.ring (io.inL, io.inR)
  let st1 := { st with
    ring := ring
    buttonToggleState := nextToggle st io
    prevButtonPressed := io.buttonPressed }
  match st.state with
  | .idle =>
      if wb then
        let start : ℕ :=
          (((ring.wp : ℤ) - io.Lsamples + ring.size) % (ring.size : ℤ)).toNat
        { st1 with
          loopL := fun i =>
            if i < io.Lsamples then ring.dataL ((start + i) % ring.size) else st.loopL i
          loopR := fun i =>
            if i < io.Lsamples then ring.dataR ((start + i) % ring.size) else st.loopR i
          loopSamples := io.Lsamples
          playheadL := 0
          playheadR := 0
          rampSamples := 0
          state := .build }
      else st1
  | .build =>
      if wb then
        { st1 with
          rampSamples := st.rampSamples + 1
          playheadL := wrapPos (st.playheadL + io.rate) st.loopSamples
          playheadR := wrapPos (st.playheadR + io.rate) st.loopSamples }
      else exitFadeBody { st1 with state := .exitFade } 0 io
  | .exitFade => exitFadeBody st1 st.exitFadeSamples io


theorem ringOfHistory_append (sz : ℕ) (hist : List (ℚ × ℚ)) (x : ℚ × ℚ) :
    ringOfHistory sz (hist ++ [x]) = writeRing (ringOfHistory sz hist) x := by
  unfold ringOfHistory
  rw [List.foldl_append]
  rfl

/-- The ring size is never changed by writes. -/
theorem ringOfHistory_size (sz : ℕ) (hist : List (ℚ × ℚ)) :
    (ringOfHistory sz hist).size = sz := by
  induction hist using List.reverseRecOn with
  | nil => rfl
  | append_singleton l x ih =>
      rw [ringOfHistory_append]
      exact ih

/-- The write cursor is the total write count modulo the ring size,
however many times the ring has wrapped. -/
theorem ringOfHistory_wp (sz : ℕ) (hist : List (ℚ × ℚ)) :
    (ringOfHistory sz hist).wp = hist.length % sz := by
  induction hist using List.reverseRecOn with
  | nil =>
      show 0 = 0 % sz
      rw [Nat.zero_mod]
  | append_singleton l x ih =>
      rw [ringOfHistory_append]
      show ((ringOfHistory sz l).wp + 1) % (ringOfHistory sz l).size = (l ++ [x]).length % sz
      rw [ih, ringOfHistory_size, Nat.mod_add_mod]
      congr 1
      simp

/-- Two write counts less than one ring-length apart land on different
slots. -/
theorem mod_ne_of_small_gap (k m sz : ℕ) (hkm : k < m) (hgap : m - k < sz) :
    k % sz ≠ m % sz := by
  intro heq
  have hdvd : sz ∣ m - k := (Nat.modEq_iff_dvd' (le_of_lt hkm)).mp heq
  have := Nat.le_of_dvd (by omega) hdvd
  omega

/-- Every one of the most recent `sz` writes survives in the ring: if
`k` is a write index within the last `sz` writes, slot `k % sz` still
holds the `k`-th written sample, no matter how often the ring wrapped. -/
theorem ringOfHistory_recent (sz : ℕ) (hist : List (ℚ × ℚ)) :
    ∀ k, k < hist.length → hist.length ≤ k + sz →
      (ringOfHistory sz hist).dataL (k % sz) = (hist.getD k (0, 0)).1 ∧
        (ringOfHistory sz hist).dataR (k % sz) = (hist.getD k (0, 0)).2 := by
  induction hist using List.reverseRecOn with
  | nil =>
      intro k hk _
      simp at hk
  | append_singleton l x ih =>
      intro k hk hrecent
      simp only [List.length_append, List.length_singleton] at hk hrecent
      rw [ringOfHistory_append]
      rcases Nat.lt_or_ge k l.length with hcase | hcase
      · have hne : k % sz ≠ (ringOfHistory sz l).wp := by
          rw [ringOfHistory_wp]
          exact mod_ne_of_small_gap k l.length sz hcase (by omega)
        have hgetD : (l ++ [x]).getD k (0, 0) = l.getD k (0, 0) := by
          unfold List.getD
          rw [List.get?_append hcase]
        obtain ⟨ihL, ihR⟩ := ih k hcase (by omega)
        constructor
        · show Function.update (ringOfHistory sz l).dataL (ringOfHistory sz l).wp x.1 (k % sz) = _
          rw [Function.update_noteq hne, hgetD]
          exact ihL
        · show Function.update (ringOfHistory sz l).dataR (ringOfHistory sz l).wp x.2 (k % sz) = _
          rw [Function.update_noteq hne, hgetD]
          exact ihR
      · have hke : k = l.length := by omega
        have hgetD : (l ++ [x]).getD k (0, 0) = x := by
          unfold List.getD
          rw [hke, List.get?_concat_length]
          rfl
        have hwp : (ringOfHistory sz l).wp = k % sz := by rw [ringOfHistory_wp, hke]
        constructor
        · show Function.update (ringOfHistory sz l).dataL (ringOfHistory sz l).wp x.1 (k % sz) = _
          rw [hgetD, hwp, Function.update_same]
        · show Function.update (ringOfHistory sz l).dataR (ringOfHistory sz l).wp x.2 (k % sz) = _
          rw [hgetD, hwp, Function.update_same]

/-- The snapshot start index `(wp - L + size) % size` (with the
post-write cursor `wp = n % size`) plus `i` lands on the slot of the
absolute write index `n - L + i`, for any total write count `n ≥ L`
(the ring may have wrapped arbitrarily often). -/
theorem snapshot_index_mod (n L sz i : ℕ) (hsz : 0 < sz) (hLn : L ≤ n)
    (hLsz : L ≤ sz) (hi : i < L) :
    ((((((n % sz : ℕ) : ℤ) - L + sz) % (sz : ℤ)).toNat + i) % sz) =
      (n - L + i) % sz := by
  have hX : ((n % sz + sz - L : ℕ) : ℤ) = ((n % sz : ℕ) : ℤ) - L + sz := by
    rw [Nat.cast_sub (by omega : L ≤ n % sz + sz)]
    push_cast
    ring
  have ht : ((((n % sz : ℕ) : ℤ) - L + sz) % (sz : ℤ)).toNat = (n % sz + sz - L) % sz := by
    rw [← hX, ← Int.natCast_mod, Int.toNat_natCast]
  rw [ht]
  have hdm : sz * (n / sz) + n % sz = n := Nat.div_add_mod n sz
  calc ((n % sz + sz - L) % sz + i) % sz
      = (n % sz + sz - L + i) % sz := Nat.mod_add_mod _ _ _
    _ = (sz * (n / sz) + (n % sz + sz - L + i)) % sz := (Nat.mul_add_mod _ _ _).symm
    _ = (n - L + i + sz) % sz := by congr 1; omega
    _ = (n - L + i) % sz := Nat.add_mod_right _ _

/-- C4: whenever the looper is in IDLE and a build request arrives (gate
high, or the button toggle on with no gate connected), that process step
copies exactly the most recent `Lsamples` input values (including the
sample written this step) into the loop buffer in chronological order
for both channels, sets `loopSamples`, resets both playheads to 0, and
enters BUILD. -/
theorem c4_build_snapshot (hist : List (ℚ × ℚ)) (st : Looper) (io : LooperIn)
    (hring : st.ring = ringOfHistory RING_MAX hist)
    (hstate : st.state = .idle)
    (hwant : wantBuild st io = true)
    (hL1 : 1 ≤ io.Lsamples)
    (hLring : io.Lsamples ≤ RING_MAX)
    (hLn : io.Lsamples ≤ hist.length + 1) :
    (looperStep st io).state = .build ∧
      (looperStep st io).loopSamples = io.Lsamples ∧
      (looperStep st io).playheadL = 0 ∧ (looperStep st io).playheadR = 0 ∧
      ∀ i < io.Lsamples,
        (looperStep st io).loopL i =
            ((hist ++ [(io.inL, io.inR)]).getD
              ((hist ++ [(io.inL, io.inR)]).length - io.Lsamples + i) (0, 0)).1 ∧
          (looperStep st io).loopR i =
            ((hist ++ [(io.inL, io.inR)]).getD
              ((hist ++ [(io.inL, io.inR)]).length - io.Lsamples + i) (0, 0)).2 := by
  have hRM : 0 < RING_MAX := by norm_num [RING_MAX]
  set hist2 := hist ++ [(io.inL, io.inR)] with hh2
  have hlen2 : hist2.length = hist.length + 1 := by simp [hh2]
  have hring2 : writeRing st.ring (io.inL, io.inR) = ringOfHistory RING_MAX hist2 := by
    rw [hring, hh2, ringOfHistory_append]
  have hsize : (ringOfHistory RING_MAX hist2).size = RING_MAX := ringOfHistory_size _ _
  have hwp : (ringOfHistory RING_MAX hist2).wp = hist2.length % RING_MAX :=
    ringOfHistory_wp _ _
  unfold looperStep
  rw [hstate]
  simp only [hwant, if_true]
  rw [hring2]
  refine ⟨by trivial, by trivial, by trivial, by trivial, ?_⟩
  intro i hi
  have hidx :
      (((((ringOfHistory RING_MAX hist2).wp : ℤ) - io.Lsamples +
          (ringOfHistory RING_MAX hist2).size) % ((ringOfHistory RING_MAX hist2).size : ℤ)).toNat
        + i) % (ringOfHistory RING_MAX hist2).size =
        (hist2.length - io.Lsamples + i) % RING_MAX := by
    rw [hwp, hsize]
    exact snapshot_index_mod hist2.length io.Lsamples RING_MAX i hRM (by omega) hLring hi
  have hrecent := ringOfHistory_recent RING_MAX hist2 (hist2.length - io.Lsamples + i)
    (by omega) (by omega)
  constructor
  · show (if i < io.Lsamples then (ringOfHistory RING_MAX hist2).dataL _ else st.loopL i) = _
    rw [if_pos hi, hidx]
    exact hrecent.1
  · show (if i < io.Lsamples then (ringOfHistory RING_MAX hist2).dataR _ else st.loopR i) = _
    rw [if_pos hi, hidx]
    exact hrecent.2

/-- A concrete idle looper whose ring holds the history `[(1,2),(3,4)]`. -/
def looperExample : Looper :=
  { ring := ringOfHistory RING_MAX [((1 : ℚ), (2 : ℚ)), (3, 4)]
    loopL := fun _ => 0
    loopR := fun _ => 0
    loopSamples := 0
    state := .idle
    playheadL := 0
    playheadR := 0
    rampSamples := 0
    exitFadeSamples := 0
    buttonToggleState := false
    prevButtonPressed := false }

/-- A concrete build-requesting input step (gate high, loop length 2). -/
def looperInExample : LooperIn :=
  { inL := 5, inR := 6, gateHigh := true, trigConnected := true, buttonPressed := false
    Lsamples := 2, rate := 0, exitFadeTotal := 960 }

/-- Witness for C4: with history `[(1,2),(3,4)]` and this step's input
`(5,6)`, a loop of length 2 snapshots `[(3,4),(5,6)]`. -/
theorem c4_build_snapshot_witness :
    looperExample.ring = ringOfHistory RING_MAX [((1 : ℚ), (2 : ℚ)), (3, 4)] ∧
      looperExample.state = .idle ∧
      wantBuild looperExample looperInExample = true ∧
      1 ≤ looperInExample.Lsamples ∧
      looperInExample.Lsamples ≤ RING_MAX ∧
      looperInExample.Lsamples ≤ [((1 : ℚ), (2 : ℚ)), (3, 4)].length + 1 ∧
      ((looperStep looperExample looperInExample).state = .build ∧
        (looperStep looperExample looperInExample).loopSamples = looperInExample.Lsamples ∧
        (looperStep looperExample looperInExample).playheadL = 0 ∧
        (looperStep looperExample looperInExample).playheadR = 0 ∧
        ∀ i < looperInExample.Lsamples,
          (looperStep looperExample looperInExample).loopL i =
              (([((1 : ℚ), (2 : ℚ)), (3, 4)] ++ [(looperInExample.inL, looperInExample.inR)]).getD
                (([((1 : ℚ), (2 : ℚ)), (3, 4)] ++
                  [(looperInExample.inL, looperInExample.inR)]).length -
                  looperInExample.Lsamples + i) (0, 0)).1 ∧
            (looperStep looperExample looperInExample).loopR i =
              (([((1 : ℚ), (2 : ℚ)), (3, 4)] ++ [(looperInExample.inL, looperInExample.inR)]).getD
                (([((1 : ℚ), (2 : ℚ)), (3, 4)] ++
                  [(looperInExample.inL, looperInExample.inR)]).length -
                  looperInExample.Lsamples + i) (0, 0)).2) :=
  ⟨rfl, rfl, rfl, by norm_num [looperInExample],
    by norm_num [looperInExample, RING_MAX], by norm_num [looperInExample],
    c4_build_snapshot [((1 : ℚ), (2 : ℚ)), (3, 4)] looperExample looperInExample rfl rfl rfl
      (by norm_num [looperInExample]) (by norm_num [looperInExample, RING_MAX])
      (by norm_num [looperInExample])⟩

/-- C5 counterexample: with a clock whose rising edges arrive one sample
apart, the smoothed beat period becomes `0.9`, the clocked loop length
computes to `L_samples = 3`, and the crossfade length computes to
`Nfade = 4`, which exceeds half the loop length (`3/2`); the lower
clamp bound 4 of `clamp(x, 4, L/2)` wins when `L/2 < 4`. -/
theorem cTruncQ_eq_of_nonneg (q : ℚ) (n : ℤ) (h0 : 0 ≤ q) (h1 : (n : ℚ) ≤ q)
    (h2 : q < n + 1) : cTruncQ q = n := by
  unfold cTruncQ
  rw [if_neg (not_lt.mpr h0), Int.floor_eq_iff]
  exact ⟨h1, by exact_mod_cast h2⟩

theorem c5_counterexample :
    updateBeatPeriod 0 1 44100 = 9/10 ∧
      computeLClocked 0 (9/10) (1/4) 44100 RING_MAX = 3 ∧
      computeNfade 44100 3 = 4 ∧
      ¬ (computeNfade 44100 3 ≤ 3 / 2) ∧
      ¬ ((computeNfade 44100 3 : ℚ) ≤ (3 : ℚ) / 2) := by
  have hbar0 : cTruncQ ((0 : ℚ) + 1/2) = 0 :=
    cTruncQ_eq_of_nonneg _ 0 (by norm_num) (by norm_num) (by norm_num)
  have hbars : computeBars 0 = 1 := by
    unfold computeBars
    rw [hbar0]
    rfl
  have hfloor1 : cTruncQ (((computeBars 0 * 4 : ℕ) : ℚ) * (9/10)) = 3 := by
    rw [hbars]
    exact cTruncQ_eq_of_nonneg _ 3 (by norm_num) (by norm_num) (by norm_num)
  have hL : computeLClocked 0 (9/10) (1/4) 44100 RING_MAX = 3 := by
    unfold computeLClocked
    rw [if_pos (by norm_num : (0 : ℚ) < 9/10), hfloor1,
      if_pos (by norm_num [RING_MAX] : 0 < RING_MAX)]
    unfold rackClampI
    norm_num [RING_MAX, LOOP_MAX]
  have h441 : cTruncQ (10 * (1/1000) * 44100) = 441 :=
    cTruncQ_eq_of_nonneg _ 441 (by norm_num) (by norm_num) (by norm_num)
  have hNf : computeNfade 44100 3 = 4 := by
    unfold computeNfade
    rw [h441]
    unfold rackClampI
    norm_num
  have hclock : cTruncQ ((44100 : ℚ) * 4) = 176400 :=
    cTruncQ_eq_of_nonneg _ 176400 (by norm_num) (by norm_num) (by norm_num)
  refine ⟨?_, hL, hNf, ?_, ?_⟩
  · unfold updateBeatPeriod
    rw [if_pos ⟨by norm_num, by rw [hclock]; norm_num⟩]
    norm_num
  · rw [hNf]; norm_num
  · rw [hNf]; norm_num

/-- C5 amended: whenever the computed loop length satisfies
`8 ≤ L_samples` (so that `L_samples / 2` is at least the lower clamp
bound 4) the crossfade window length satisfies
`Nfade ≤ L_samples / 2`; for shorter loops the lower bound 4 wins and
the window exceeds half the loop (and `readWithLoopCrossfade` then
skips the crossfade since `len < 2 * Nfade`). -/
theorem c5_crossfade_at_most_half (sr : ℚ) (L : ℤ) (hL : 8 ≤ L) :
    computeNfade sr L ≤ L / 2 := by
  have h4 : (4 : ℤ) ≤ L / 2 := by
    have h := Int.ediv_le_ediv (by norm_num : (0 : ℤ) < 2) hL
    norm_num at h
    exact h
  unfold computeNfade rackClampI
  exact max_le (min_le_right _ _) h4

/-- Witness for C5 (amended) at `sr = 44100`, `L = 8`. -/
theorem c5_crossfade_at_most_half_witness :
    (8 : ℤ) ≤ 8 ∧ computeNfade 44100 8 ≤ 8 / 2 :=
  ⟨le_refl 8, c5_crossfade_at_most_half 44100 8 (le_refl 8)⟩

/-- Every branch of `looperStep` stores the updated toggle and the
current button value. -/
theorem looperStep_toggle_prev (st : Looper) (io : LooperIn) :
    (looperStep st io).buttonToggleState = nextToggle st io ∧
      (looperStep st io).prevButtonPressed = io.buttonPressed := by
  constructor <;>
    (unfold looperStep
     cases st.state <;> dsimp only <;>
       first
       | (split <;> rfl)
       | rfl)

/-- C10: the BUILD button's toggle flips on every change of the button
value — falling edges as well as rising edges — so a full
press-and-release of a momentary control flips the toggle twice,
leaving it in its original state, while a single (latched) value change
flips it exactly once. -/
theorem c10_build_toggle_flips_on_any_edge (st : Looper) (io1 io2 : LooperIn)
    (hprev : st.prevButtonPressed = false)
    (h1 : io1.buttonPressed = true) (h2 : io2.buttonPressed = false) :
    (looperStep st io1).buttonToggleState = !st.buttonToggleState ∧
      (looperStep (looperStep st io1) io2).buttonToggleState = st.buttonToggleState := by
  have t1 := looperStep_toggle_prev st io1
  have t2 := looperStep_toggle_prev (looperStep st io1) io2
  have hflip1 : (looperStep st io1).buttonToggleState = !st.buttonToggleState := by
    rw [t1.1]
    unfold nextToggle
    rw [h1, hprev]
    simp
  refine ⟨hflip1, ?_⟩
  rw [t2.1]
  unfold nextToggle
  rw [h2, t1.2, h1, hflip1]
  simp

/-- Witness for C10: a full press-and-release starting from the example
looper restores the toggle. -/
theorem c10_build_toggle_flips_on_any_edge_witness :
    looperExample.prevButtonPressed = false ∧
      ({ looperInExample with buttonPressed := true } : LooperIn).buttonPressed = true ∧
      looperInExample.buttonPressed = false ∧
      ((looperStep looperExample { looperInExample with buttonPressed := true }).buttonToggleState
          = !looperExample.buttonToggleState ∧
        (looperStep (looperStep looperExample { looperInExample with buttonPressed := true })
            looperInExample).buttonToggleState = looperExample.buttonToggleState) :=
  ⟨rfl, rfl, rfl,
    c10_build_toggle_flips_on_any_edge looperExample
      { looperInExample with buttonPressed := true } looperInExample rfl rfl rfl⟩


/-! ## AmbientRandomSynth voice pool (src/AmbientRandomSynth.cpp lines 41-91, 149-172)

`playNote` computes the note parameters and then scans the fixed
16-slot voice array for the first inactive slot; the scan loop is
embedded as the structurally recursive `scanInactive`, and `playNote`
is parametrized over the already-computed frequency, attack, release
and MIDI note (lines 150-161). -/

structure AVoice where
  active : Bool
  freq : ℚ
  phase0 : ℚ
  phase1 : ℚ
  phase2 : ℚ
  env : ℚ
  envPhase : ℚ
  attack : ℚ
  release : ℚ
  midiNote : ℚ
deriving DecidableEq, Repr

/-- `Voice::trigger` (lines 51-59): set the note parameters and restart
the envelope; phases are deliberately not reset. -/
def triggerVoice (v : AVoice) (f att rel note : ℚ) : AVoice :=
  { v with
    active := true, freq := f, attack := att, release := rel
    midiNote := note, envPhase := 0 }

structure SynthState where
  voices : Fin 16 → AVoice
  lastVoct : ℚ
  gateTimer : ℚ

/-- The scan loop of lines 164-171: first index `≥ i` whose voice is
inactive, in ascending order. -/
def scanInactive (v : Fin 16 → AVoice) (i : ℕ) : Option (Fin 16) :=
  if h : i < 16 then
    if (v ⟨i, h⟩).active = false then some ⟨i, h⟩
    else scanInactive v (i + 1)
  else none
termination_by 16 - i

/-- `AmbientRandomSynth::playNote` (lines 149-172), parametrized over
the computed note values: trigger the first inactive slot and update
`lastVoct` and `gateTimer`; if every slot is active, do nothing. -/
def playNote (s : SynthState) (f att rel note : ℚ) : SynthState :=
  match scanInactive s.voices 0 with
  | none => s
  | some i =>
      { s with
        voices := Function.update s.voices i (triggerVoice (s.voices i) f att rel note)
        lastVoct := (note - 60) / 12
        gateTimer := 3/20 }

theorem scanInactive_all_active (v : Fin 16 → AVoice)
    (hall : ∀ i : Fin 16, (v i).active = true) :
    ∀ j : ℕ, scanInactive v j = none := by
  have H : ∀ n j, 16 - j ≤ n → scanInactive v j = none := by
    intro n
    induction n with
    | zero =>
        intro j hj
        unfold scanInactive
        rw [dif_neg (by omega : ¬ j < 16)]
    | succ n ih =>
        intro j hj
        unfold scanInactive
        rcases Nat.lt_or_ge j 16 with hlt | hge
        · rw [dif_pos hlt, if_neg (by rw [hall ⟨j, hlt⟩]; simp)]
          exact ih (j + 1) (by omega)
        · rw [dif_neg (by omega)]
  exact fun j => H 16 j (by omega)

theorem scanInactive_spec (v : Fin 16 → AVoice) :
    ∀ (n i : ℕ) (j : Fin 16), 16 - i ≤ n → scanInactive v i = some j →
      i ≤ (j : ℕ) ∧ (v j).active = false ∧
        ∀ m : Fin 16, i ≤ (m : ℕ) → (m : ℕ) < (j : ℕ) → (v m).active = true := by
  intro n
  induction n with
  | zero =>
      intro i j hn hscan
      unfold scanInactive at hscan
      rw [dif_neg (by omega : ¬ i < 16)] at hscan
      exact absurd hscan (by simp)
  | succ n ih =>
      intro i j hn hscan
      unfold scanInactive at hscan
      rcases Nat.lt_or_ge i 16 with hlt | hge
      · rw [dif_pos hlt] at hscan
        by_cases hact : (v ⟨i, hlt⟩).active = false
        · rw [if_pos hact] at hscan
          have hj : j = ⟨i, hlt⟩ := (Option.some_injective _ hscan).symm
          subst hj
          exact ⟨le_refl _, hact, fun m hm1 hm2 => absurd (lt_of_le_of_lt hm1 hm2)
            (lt_irrefl _)⟩
        · rw [if_neg hact] at hscan
          obtain ⟨hij, hjact, hmid⟩ := ih (i + 1) j (by omega) hscan
          refine ⟨by omega, hjact, ?_⟩
          intro m hm1 hm2
          rcases Nat.lt_or_ge (m : ℕ) (i + 1) with hmlt | hmge
          · have hmi : (m : ℕ) = i := by omega
            have hmeq : m = ⟨i, hlt⟩ := Fin.ext hmi
            rw [hmeq]
            cases hb : (v ⟨i, hlt⟩).active with
            | false => exact absurd hb hact
            | true => rfl
          · exact hmid m hmge hm2
      · rw [dif_neg (by omega)] at hscan
        exact absurd hscan (by simp)

/-- C7: if all 16 voice slots are active, `playNote` changes nothing at
all (no voice reassigned, `lastVoct` and `gateTimer` unchanged — the
note-on is silently dropped); otherwise the first inactive slot in scan
order is triggered with the new frequency and envelope parameters and
`lastVoct`/`gateTimer` are updated. -/
theorem c7_playnote_drop_or_first_inactive (s : SynthState) (f att rel note : ℚ) :
    ((∀ i : Fin 16, (s.voices i).active = true) → playNote s f att rel note = s) ∧
      (∀ j : Fin 16, scanInactive s.voices 0 = some j →
        (s.voices j).active = false ∧
          (∀ m : Fin 16, (m : ℕ) < (j : ℕ) → (s.voices m).active = true) ∧
          playNote s f att rel note =
            { s with
              voices := Function.update s.voices j (triggerVoice (s.voices j) f att rel note)
              lastVoct := (note - 60) / 12
              gateTimer := 3/20 }) := by
  constructor
  · intro hall
    unfold playNote
    rw [scanInactive_all_active s.voices hall 0]
  · intro j hj
    obtain ⟨_, hjact, hmid⟩ := scanInactive_spec s.voices 16 0 j (by omega) hj
    refine ⟨hjact, fun m hm => hmid m (Nat.zero_le _) hm, ?_⟩
    unfold playNote
    rw [hj]

/-- A synth state whose sixteen slots are all active. -/
def synthAllActive : SynthState :=
  { voices := fun _ =>
      { active := true, freq := 440, phase0 := 0, phase1 := 0, phase2 := 0
        env := 0, envPhase := 0, attack := 1/2, release := 3, midiNote := 69 }
    lastVoct := 0
    gateTimer := 0 }

/-- Witness for C7: on the all-active pool a note-on is dropped. -/
theorem c7_playnote_drop_witness :
    (∀ i : Fin 16, (synthAllActive.voices i).active = true) ∧
      playNote synthAllActive 440 (1/2) 3 69 = synthAllActive :=
  ⟨fun i => rfl,
    (c7_playnote_drop_or_first_inactive synthAllActive 440 (1/2) 3 69).1 fun i => rfl⟩

end OmniaVCV
